import Mathlib

/-!
Verification of the `texplore` tree/status engine (repository `ws-tools`,
file `src/texplore/src/main.rs`) against its natural-language specification.

The Rust source is shallowly embedded: pure functions become Lean functions,
the stateful TUI operations become explicit state-passing on an `App`
structure, and the effectful inputs (filesystem metadata, the spawned `git`
process, the `trash` utility, the compiled third-party `Gitignore` matcher)
become explicit parameters of the functions that consume them.  Machine
integers (`u8`, `u16`, `usize`) are modelled as `Nat` with explicit `% 256`
where the source truncates (`as u8`).
-/

namespace WsTools
namespace Texplore

/-! ## Styled text model (`Color`, `TextStyle`, `StyledSpan`)

`Color` embeds the subset of `ratatui::style::Color` that the source
constructs in `ansi_color` / `parse_extended_color`.  `Indexed` carries the
`u8` as a `Nat`; `parse_extended_color` truncates with `% 256` exactly where
the source casts `u16 as u8`. -/

inductive Color where
  | Black | Red | Green | Yellow | Blue | Magenta | Cyan | Gray
  | DarkGray | LightRed | LightGreen | LightYellow | LightBlue
  | LightMagenta | LightCyan | White
  | Indexed (n : Nat)
  | Rgb (r g b : Nat)
deriving DecidableEq, Repr

/-- `struct TextStyle` from the source; `Default` derives to all-`none`/`false`. -/
structure TextStyle where
  fg : Option Color := none
  bg : Option Color := none
  bold : Bool := false
  dim : Bool := false
  italic : Bool := false
  underline : Bool := false
deriving DecidableEq, Repr

/-- `struct StyledSpan` from the source. -/
structure StyledSpan where
  text : String
  style : TextStyle
deriving DecidableEq, Repr

/-! ## ANSI SGR parsing (`ansi_color`, `parse_extended_color`, `apply_sgr`) -/

/-- `fn ansi_color(code: u16) -> Color` (verbatim table; default arm `White`). -/
def ansi_color (code : Nat) : Color :=
  if code = 30 then .Black
  else if code = 31 then .Red
  else if code = 32 then .Green
  else if code = 33 then .Yellow
  else if code = 34 then .Blue
  else if code = 35 then .Magenta
  else if code = 36 then .Cyan
  else if code = 37 then .Gray
  else if code = 90 then .DarkGray
  else if code = 91 then .LightRed
  else if code = 92 then .LightGreen
  else if code = 93 then .LightYellow
  else if code = 94 then .LightBlue
  else if code = 95 then .LightMagenta
  else if code = 96 then .LightCyan
  else if code = 97 then .White
  else .White

/-- `fn parse_extended_color(codes: &[u16]) -> Option<(Color, usize)>`.
`5 ; N` consumes 2 parameters and yields `Indexed (N as u8)`;
`2 ; R ; G ; B` consumes 4 and yields `Rgb` (each component `as u8`). -/
def parse_extended_color : List Nat → Option (Color × Nat)
  | 5 :: rest =>
    match rest.head? with
    | some n => some (Color.Indexed (n % 256), 2)
    | none => none
  | 2 :: r :: g :: b :: _ => some (Color.Rgb (r % 256) (g % 256) (b % 256), 4)
  | _ => none

/-- Rust `str::split(sep)` on a character separator, over the string's
characters: the pieces between separator occurrences, empty pieces
included. -/
def split_char (sep : Char) : List Char → List (List Char)
  | [] => [[]]
  | c :: rest =>
    let r := split_char sep rest
    if c = sep then [] :: r
    else
      match r with
      | h :: t => (c :: h) :: t
      | [] => [[c]]

/-- Rust `str::trim()`: drop leading and trailing whitespace characters. -/
def trim_chars (l : List Char) : List Char :=
  ((l.dropWhile Char.isWhitespace).reverse.dropWhile Char.isWhitespace).reverse

/-- Rust `str::trim()` packaged on `String` (`String` is a list of
characters here, so this is `trim_chars` on the underlying characters). -/
def str_trim (s : String) : String := ⟨trim_chars s.data⟩

/-- Rust `str::parse::<u16>()` on a piece's characters: an optional leading
`+`, then one or more ASCII digits, rejecting the empty piece and values
over `u16::MAX`. -/
def parse_u16 (ds0 : List Char) : Option Nat :=
  let ds := match ds0 with
    | '+' :: rest => rest
    | _ => ds0
  if ds ≠ [] ∧ ds.all Char.isDigit then
    let v := ds.foldl (fun a c => a * 10 + (c.toNat - 48)) 0
    if v < 65536 then some v else none
  else none

/-- The `while i < codes_vec.len()` loop of `fn apply_sgr`, acting on the
already-parsed numeric parameter vector.  `38`/`48` hand the tail to
`parse_extended_color` and skip the consumed parameters (`i += consumed`). -/
def sgr_loop : List Nat → TextStyle → TextStyle
  | [], style => style
  | c :: rest, style =>
    if c = 0 then sgr_loop rest {}
    else if c = 1 then sgr_loop rest { style with bold := true }
    else if c = 2 then sgr_loop rest { style with dim := true }
    else if c = 3 then sgr_loop rest { style with italic := true }
    else if c = 4 then sgr_loop rest { style with underline := true }
    else if c = 22 then sgr_loop rest { style with bold := false, dim := false }
    else if c = 23 then sgr_loop rest { style with italic := false }
    else if c = 24 then sgr_loop rest { style with underline := false }
    else if c = 39 then sgr_loop rest { style with fg := none }
    else if c = 49 then sgr_loop rest { style with bg := none }
    else if (30 ≤ c ∧ c ≤ 37) ∨ (90 ≤ c ∧ c ≤ 97) then
      sgr_loop rest { style with fg := some (ansi_color c) }
    else if (40 ≤ c ∧ c ≤ 47) ∨ (100 ≤ c ∧ c ≤ 107) then
      sgr_loop rest { style with bg := some (ansi_color (c - 10)) }
    else if c = 38 then
      match parse_extended_color rest with
      | some (color, consumed) =>
        sgr_loop (rest.drop consumed) { style with fg := some color }
      | none => sgr_loop rest style
    else if c = 48 then
      match parse_extended_color rest with
      | some (color, consumed) =>
        sgr_loop (rest.drop consumed) { style with bg := some color }
      | none => sgr_loop rest style
    else sgr_loop rest style
termination_by codes _ => codes.length
decreasing_by
  all_goals simp [List.length_drop]
  all_goals omega

/-- `fn apply_sgr(codes: &str, style: &mut TextStyle)` (the parameter string
arrives as its characters): an empty parameter string is a full reset;
otherwise split on `;`, drop empty pieces, keep the pieces that parse as
`u16`, and run the code loop. -/
def apply_sgr (codes : List Char) (style : TextStyle) : TextStyle :=
  if codes.isEmpty then {}
  else
    let codes_vec := ((split_char ';' codes).filter (fun p => p ≠ [])).filterMap parse_u16
    sgr_loop codes_vec style

/-! ## ANSI span scanning (`parse_ansi_spans`) -/

/-- The inner `for c in chars.by_ref()` loop of `fn parse_ansi_spans`:
consume characters up to and including the terminating `m`, returning the
accumulated parameter characters and the remaining input.  When the input
ends before an `m`, everything is consumed into the parameters. -/
def scan_codes : List Char → List Char × List Char
  | [] => ([], [])
  | c :: rest =>
    if c = 'm' then ([], rest)
    else
      let (cs, r) := scan_codes rest
      (c :: cs, r)

theorem scan_codes_rest_length (l : List Char) : (scan_codes l).2.length ≤ l.length := by
  induction l with
  | nil => simp [scan_codes]
  | cons c rest ih =>
    simp only [scan_codes]
    by_cases h : c = 'm'
    · simp [h]
    · simp only [h, if_false]
      simp
      omega

/-- The character loop of `fn parse_ansi_spans(line: &str)`: `style` is the
running style, `buf` the pending literal run.  On ESC `[` the pending run is
flushed (if non-empty) with the pre-update style, then the SGR codes are
applied.  An ESC not followed by `[` falls through into the literal buffer,
mirroring the source (where `peek` does not consume). -/
def ansi_loop : List Char → TextStyle → List Char → List StyledSpan
  | [], style, buf =>
    if buf.isEmpty then [] else [⟨buf.asString, style⟩]
  | c :: rest, style, buf =>
    if c = '\x1b' ∧ rest.head? = some '[' then
      let rest2 := rest.tail
      (if buf.isEmpty then [] else [⟨buf.asString, style⟩]) ++
        ansi_loop (scan_codes rest2).2 (apply_sgr (scan_codes rest2).1 style) []
    else ansi_loop rest style (buf ++ [c])
termination_by l _ _ => l.length
decreasing_by
  · have := scan_codes_rest_length rest.tail
    simp only [List.length_cons]
    have h2 : rest.tail.length ≤ rest.length := by
      cases rest <;> simp
    omega
  · simp

/-- `fn parse_ansi_spans(line: &str) -> Vec<StyledSpan>`. -/
def parse_ansi_spans (line : String) : List StyledSpan :=
  ansi_loop line.toList {} []

/-! ## Tree model (`Node`, `VisibleEntry`)

`struct Node` is recursive through `children: Option<Vec<Node>>`
(`none` = not yet loaded), so it is a nested inductive here.  Paths stay
opaque `String`s.  The field order follows the Rust struct. -/

inductive Node where
  | mk (path : String) (is_dir : Bool) (expanded : Bool)
       (children : Option (List Node))
       (icon : String) (icon_key : String) (status : String) (modified : String)
       (subtree_changes : Nat) (name : String) (ignored : Bool)

def Node.path : Node → String
  | .mk p _ _ _ _ _ _ _ _ _ _ => p

def Node.is_dir : Node → Bool
  | .mk _ d _ _ _ _ _ _ _ _ _ => d

def Node.expanded : Node → Bool
  | .mk _ _ e _ _ _ _ _ _ _ _ => e

def Node.children : Node → Option (List Node)
  | .mk _ _ _ c _ _ _ _ _ _ _ => c

def Node.icon : Node → String
  | .mk _ _ _ _ i _ _ _ _ _ _ => i

def Node.icon_key : Node → String
  | .mk _ _ _ _ _ k _ _ _ _ _ => k

def Node.status : Node → String
  | .mk _ _ _ _ _ _ s _ _ _ _ => s

def Node.modified : Node → String
  | .mk _ _ _ _ _ _ _ m _ _ _ => m

def Node.subtree_changes : Node → Nat
  | .mk _ _ _ _ _ _ _ _ n _ _ => n

def Node.name : Node → String
  | .mk _ _ _ _ _ _ _ _ _ n _ => n

def Node.ignored : Node → Bool
  | .mk _ _ _ _ _ _ _ _ _ _ g => g

/-- `struct VisibleEntry` from the source.  The Rust field `prefix` is named
`pfx` here (the Rust name is not usable as a plain identifier in this
development); it is the tree-drawing prefix string. -/
structure VisibleEntry where
  indices : List Nat
  pfx : String
  path : String
  is_dir : Bool
  icon : String
  icon_key : String
  status : String
  modified : String
  subtree_changes : Nat
  metrics : String
  name : String
  ignored : Bool
deriving DecidableEq, Repr

/-! ## Flattener (`make_prefix`, `collect_visible`) -/

/-- `fn make_prefix(bars: &[bool], is_last: bool) -> String` (named `make_pfx`
here, see `VisibleEntry.pfx`): one `│`/space per entry of `bars`, then the
node's own connector, `└` for a last sibling and `├` otherwise. -/
def make_pfx (bars : List Bool) (is_last : Bool) : String :=
  ⟨bars.map (fun b => if b then '│' else ' ') ++ [if is_last then '└' else '├']⟩

mutual

/-- `fn collect_visible(node, indices, bars, is_root, is_last, root_metrics, out)`.
The `&mut` accumulators become arguments (`indices`, `bars` hold the state at
entry; the source's push/pop around the child loop becomes `++ [·]` at the
recursive call) and the output vector becomes the return value.
`collect_children` is the `for (idx, child) in children.iter().enumerate()`
loop, carrying the running index and `last_index = len.saturating_sub(1)`. -/
def collect_visible (node : Node) (indices : List Nat) (bars : List Bool)
    (is_root is_last : Bool) (root_metrics : String) : List VisibleEntry :=
  match node with
  | .mk path is_dir expanded children icon icon_key status modified subtree_changes name ignored =>
    let pfx := if is_root then "" else make_pfx bars is_last
    let metrics := if indices.isEmpty then root_metrics else ""
    ⟨indices, pfx, path, is_dir, icon, icon_key, status, modified, subtree_changes,
      metrics, name, ignored⟩ ::
      (match is_dir && expanded, children with
       | true, some cs =>
         collect_children cs indices (bars ++ [!is_last]) 0 (cs.length - 1) root_metrics
       | _, _ => [])

def collect_children (cs : List Node) (indices : List Nat) (bars : List Bool)
    (idx last_index : Nat) (root_metrics : String) : List VisibleEntry :=
  match cs with
  | [] => []
  | c :: rest =>
    collect_visible c (indices ++ [idx]) bars false (idx == last_index) root_metrics ++
      collect_children rest indices bars (idx + 1) last_index root_metrics

end

/-! ## Index-path addressing (`node_at_mut`, `parent_at_mut`) -/

/-- `fn node_at_mut(node, indices) -> Option<&mut Node>`: walk the index path,
failing (`none`) when a step hits unloaded children or an out-of-range index. -/
def node_at : Node → List Nat → Option Node
  | n, [] => some n
  | n, i :: rest =>
    match n.children with
    | some cs =>
      match cs.get? i with
      | some c => node_at c rest
      | none => none
    | none => none

/-- `fn parent_at_mut(node, indices)`: `None` on the empty path, otherwise the
node addressed by the path minus its last step. -/
def parent_at (n : Node) (indices : List Nat) : Option Node :=
  if indices.isEmpty then none else node_at n indices.dropLast

/-! ## Application state and the delete flow
(`prompt_delete`, `cancel_delete`, `confirm_delete`)

`struct App` is embedded with the fields the delete flow reads or writes;
the omitted fields (`gitignore`, `git_status`, `root_path`, `scroll`,
`viewer`, `last_click`, `refreshing`) are handles to external collaborators
or render-only state that none of the embedded operations touch.
`trash::delete` is an external effect; its outcome is passed to
`confirm_delete` as an explicit `Except String Unit` argument. -/

structure App where
  root : Node
  visible : List VisibleEntry
  focus : Nat
  status : String
  pending_delete : Option Nat

/-- `fn prompt_delete(app: &mut App)` (the `d` key): refuse on the root entry,
otherwise arm `pending_delete` with the focused row index. -/
def prompt_delete (a : App) : App :=
  match a.visible.get? a.focus with
  | some entry =>
    if entry.indices.isEmpty then { a with status := "cannot delete root" }
    else { a with pending_delete := some a.focus,
                  status := "Delete " ++ entry.name ++ "? y to confirm, Esc to cancel" }
  | none => a

/-- `fn cancel_delete(app: &mut App)` (the `Esc` key). -/
def cancel_delete (a : App) : App :=
  if a.pending_delete.isSome then
    { a with pending_delete := none, status := "delete canceled" }
  else a

/-- The node update performed by `confirm_delete` once `parent_at_mut`
succeeds: `children.remove(remove_idx)` guarded by `remove_idx < len`
(`List.eraseIdx` is the identity out of range, like the guarded `remove`),
inside `if let Some(children) = parent.children.as_mut()`. -/
def remove_child (k : Nat) : Node → Node
  | .mk p d e children i ik s m sc n ig =>
    match children with
    | some cs => .mk p d e (some (cs.eraseIdx k)) i ik s m sc n ig
    | none => .mk p d e none i ik s m sc n ig

/-- Functional counterpart of mutating the node addressed by `indices` via
`node_at_mut`: rebuild the tree along the path, applying `f` at the target;
when the path does not address a loaded child at some step (`node_at_mut`
would return `None`) the tree is returned unchanged. -/
def modify_at (n : Node) (p : List Nat) (f : Node → Node) : Node :=
  match p, n with
  | [], _ => f n
  | i :: rest, .mk pa d e children ic ik s m sc na ig =>
    match children with
    | some cs =>
      match cs.get? i with
      | some c => .mk pa d e (some (cs.set i (modify_at c rest f))) ic ik s m sc na ig
      | none => .mk pa d e (some cs) ic ik s m sc na ig
    | none => .mk pa d e none ic ik s m sc na ig

/-- `fn confirm_delete(app: &mut App)` (the `y` key).  Disarmed or stale
`pending_delete` is a no-op; the root entry is refused; a failing trash call
only reports; on success the node is removed from its parent's children
(`remove_idx` is the last step of the index path; the branch is only reached
with a non-empty path, so `getLastD` never falls back). -/
def confirm_delete (a : App) (trash_res : Except String Unit) : App :=
  match a.pending_delete with
  | none => a
  | some idx =>
    match a.visible.get? idx with
    | none => a
    | some entry =>
      if entry.indices.isEmpty then
        { a with status := "cannot delete root", pending_delete := none }
      else
        match trash_res with
        | .error err =>
          { a with status := "delete failed: " ++ err, pending_delete := none }
        | .ok _ =>
          { a with
              root := modify_at a.root entry.indices.dropLast
                        (remove_child (entry.indices.getLastD 0)),
              status := "deleted " ++ entry.name,
              pending_delete := none }

/-! ## Node construction (`build_node`, `load_children`)

`build_node` consumes `fs::symlink_metadata` plus the derived helpers
`icon_for`, `format_modified` and `is_ignored` (all functions of the live
filesystem / compiled matcher).  Those externally-determined per-path values
are gathered into `FsMeta`; the status lookup, `display_name` and the
`subtree_changes` initialisation are embedded from the source. -/

structure FsMeta where
  path : String
  is_dir : Bool
  icon : String
  icon_key : String
  modified : String
  ignored : Bool

/-- `Path::file_name`: the last `/`-separated component, `none` when empty
(paths produced by directory listing never end in a separator). -/
def path_file_name (p : String) : Option String :=
  match (split_char '/' p.data).getLast? with
  | some s => if s = [] then none else some ⟨s⟩
  | none => none

/-- `fn display_name(path, is_dir)`: the file name (falling back to the whole
path display), with a `/` appended for directories. -/
def display_name (p : String) (is_dir : Bool) : String :=
  let name := match path_file_name p with
    | some n => n
    | none => p
  if is_dir && !(name.data.getLast? = some '/') then name ++ "/" else name

/-- `fn sort_key(path)`: the ASCII-lowercased file name, `""` fallback
(`to_ascii_lowercase` is per-character lowercasing of ASCII letters, which
is what `Char.toLower` does). -/
def sort_key (p : String) : String :=
  match path_file_name p with
  | some n => ⟨n.data.map Char.toLower⟩
  | none => ""

/-- `fn build_node(path, gitignore, git_status)`.  The per-path filesystem
facts arrive in `m`; the git status map is an association list keyed by path
(`HashMap::get` becomes `List.lookup`).  Missing status defaults to two
blanks; `subtree_changes` starts at 1 exactly for files with a non-blank
trimmed status. -/
def build_node (git_map : List (String × String)) (m : FsMeta) : Node :=
  let status := match git_map.lookup m.path with
    | some s => s
    | none => "  "
  let subtree_changes := if m.is_dir || (str_trim status = "") then 0 else 1
  .mk m.path m.is_dir false none m.icon m.icon_key status m.modified
    subtree_changes (display_name m.path m.is_dir) m.ignored

/-- Rust `Ord` on `String` (lexicographic byte order; the paths here are
ASCII, where byte order and character order agree), as a Boolean `≤` on the
characters. -/
def chars_le : List Char → List Char → Bool
  | [], _ => true
  | _ :: _, [] => false
  | c :: cs, d :: ds =>
    if c.toNat = d.toNat then chars_le cs ds else c.toNat < d.toNat

/-- Stable insertion into a sorted list: the inserted element goes before
the first element it compares `le` to, after equal-key earlier elements. -/
def insert_by (le : Node → Node → Bool) (a : Node) : List Node → List Node
  | [] => [a]
  | b :: t => if le a b then a :: b :: t else b :: insert_by le a t

/-- Rust `slice::sort_by` is a stable sort; a stable sort is determined
extensionally by the comparison, so it is modelled by stable insertion
sort. -/
def sort_nodes_by (le : Node → Node → Bool) : List Node → List Node
  | [] => []
  | a :: t => insert_by le a (sort_nodes_by le t)

/-- `fn load_children(node, gitignore, git_status)`.  `entries` stands for the
successfully stat-ed results of `fs::read_dir` (per-entry errors are logged
and skipped in the source, so they simply do not appear here).  Children are
sorted by `sort_key` (stable, like `sort_by`), installed, and the parent's
`subtree_changes` becomes the sum of the children's. -/
def load_children (node : Node) (git_map : List (String × String))
    (entries : List FsMeta) : Node :=
  if !node.is_dir then node
  else
    match node with
    | .mk p d e _ i ik s m _ na ig =>
      let children := sort_nodes_by
        (fun a b => chars_le (sort_key a.path).data (sort_key b.path).data)
        (entries.map (build_node git_map))
      .mk p d e (some children) i ik s m
        ((children.map Node.subtree_changes).sum) na ig

/-! ## Git status parsing (`read_c_string`, `format_status`, `load_git_status`)

The `git status --porcelain -z` output is a byte stream; bytes are `Nat`s
(`82 = R`, `67 = C`, `63 = ?`, `32 = space`, `0 = NUL`, `47 = /`).  Paths
inside the stream stay byte lists (`from_utf8_lossy` is the identity on the
ASCII inputs of interest).  `PathBuf::join` of a relative path is appending
with a separator; `Path::starts_with` is byte-list prefix (the roots in play
are plain component prefixes). -/

/-- The final `if *idx < bytes.len() && bytes[*idx] == 0` step of
`read_c_string`: consume the terminating NUL when present. -/
def drop_nul : List Nat → List Nat
  | 0 :: t => t
  | r => r

/-- `fn read_c_string(bytes, idx)`: the run up to the next NUL, consuming the
NUL when present; returns the run and the remaining bytes. -/
def read_c_string (bytes : List Nat) : List Nat × List Nat :=
  let s := bytes.takeWhile (fun b => b ≠ 0)
  (s, drop_nul (bytes.drop s.length))

theorem drop_nul_length (r : List Nat) : (drop_nul r).length ≤ r.length := by
  cases r with
  | nil => simp [drop_nul]
  | cons b t =>
    cases b with
    | zero => simp [drop_nul]
    | succ b => simp [drop_nul]

/-- `fn format_status(x, y)`: `??` for untracked, otherwise the two
characters verbatim. -/
def format_status (x y : Nat) : String :=
  if x = 63 ∧ y = 63 then "??"
  else ⟨[Char.ofNat x, Char.ofNat y]⟩

/-- `git_root.join(path)` for the relative paths in porcelain output. -/
def path_join (root p : List Nat) : List Nat := root ++ [47] ++ p

/-- The `if idx < bytes.len() && bytes[idx] == b' '` step of the record
loop: skip a single separating space byte. -/
def skip_space : List Nat → List Nat
  | 32 :: t => t
  | r => r

theorem skip_space_length (r : List Nat) : (skip_space r).length ≤ r.length := by
  cases r with
  | nil => simp [skip_space]
  | cons b t =>
    cases b with
    | zero => simp [skip_space]
    | succ b =>
      by_cases h : b = 31
      · simp [skip_space, h]
      · have hb : b + 1 ≠ 32 := by omega
        simp [skip_space, hb]

theorem read_c_string_rest_length (bytes : List Nat) :
    (read_c_string bytes).2.length ≤ bytes.length := by
  simp only [read_c_string]
  refine le_trans (drop_nul_length _) ?_
  simp

/-- The record loop of `fn load_git_status`: `while idx + 3 <= bytes.len()`,
read the two status characters, skip one separating space, read the path,
and for rename/copy records (`R`/`C` in either column) read the second
NUL-terminated field and prefer it when non-empty.  Records whose joined
absolute path starts with `root` are inserted into the map in stream order
(`HashMap::insert` overwrites, so a later record wins — see
`status_lookup`).  The staged/unstaged/untracked tallies of the source do not
feed the map and are not tracked here. -/
def parse_status_bytes (git_root root : List Nat) (bytes : List Nat) :
    List (List Nat × String) :=
  if 3 ≤ bytes.length then
    match bytes with
    | x :: y :: r2 =>
      let r3 := skip_space r2
      let path1 := (read_c_string r3).1
      if path1.isEmpty then
        parse_status_bytes git_root root (read_c_string (skip_space r2)).2
      else
        if x = 82 ∨ x = 67 ∨ y = 82 ∨ y = 67 then
          let path2 := (read_c_string (read_c_string r3).2).1
          let path := if path2.isEmpty then path1 else path2
          let abs := path_join git_root path
          (if root.isPrefixOf abs then [(abs, format_status x y)] else []) ++
            parse_status_bytes git_root root
              (read_c_string (read_c_string (skip_space r2)).2).2
        else
          let abs := path_join git_root path1
          (if root.isPrefixOf abs then [(abs, format_status x y)] else []) ++
            parse_status_bytes git_root root (read_c_string (skip_space r2)).2
    | _ => []
  else []
termination_by bytes.length
decreasing_by
  all_goals
    have h3 := skip_space_length r2
    have h4 := read_c_string_rest_length (skip_space r2)
    have h5 := read_c_string_rest_length (read_c_string (skip_space r2)).2
    simp only [List.length_cons]
    omega

/-- Lookup in the accumulated record list under `HashMap::insert` overwrite
semantics: the last record for a key wins. -/
def status_lookup (records : List (List Nat × String)) (k : List Nat) :
    Option String :=
  records.reverse.lookup k

/-! ## Ignore predicate (`build_gitignore`, `is_ignored`)

`build_gitignore` compiles the root-level `.gitignore` with the third-party
`ignore` crate; the compiled matcher is opaque library state, modelled as an
oracle `String → Bool → Bool` standing for
`matched_path_or_any_parents(path, is_dir).is_ignore()` (`none` when the
root file is missing or fails to compile).  The nested-`.gitignore` walk of
`is_ignored` reads the live filesystem; that read becomes the map
`fs : List String → Option String` giving, for a directory (as a component
list), the contents of its `.gitignore` when that is a readable file.
Paths are component lists here because the walk is driven by
`Path::parent` / `Path::file_name`. -/

/-- One file's worth of the nested check: some line that is not blank or a
comment and whose text, after dropping leading and trailing `/`, equals the
file name.  `str::lines` is modelled as splitting on newline; the source
trims every line first, which subsumes `\r` handling. -/
def ignore_lines_match (contents fname : String) : Bool :=
  (split_char '\n' contents.data).any (fun line =>
    let l := trim_chars line
    if l = [] || l.head? = some '#' then false
    else
      let pat := ((l.dropWhile (fun c => c = '/')).reverse.dropWhile
        (fun c => c = '/')).reverse
      pat = fname.data)

/-- The `while let Some(dir) = current` walk of `fn is_ignored`: visit the
directory and every ancestor up to the filesystem root, returning `true` as
soon as some `.gitignore` there matches the file name. -/
def walk_up (fs : List String → Option String) (fname : String) :
    Option (List String) → Bool
  | none => false
  | some dir =>
    (match fs dir with
     | some contents => ignore_lines_match contents fname
     | none => false) ||
      walk_up fs fname (if dir.isEmpty then none else some dir.dropLast)
termination_by d => match d with
  | none => 0
  | some l => l.length + 1
decreasing_by
  cases dir with
  | nil => simp
  | cons a t =>
    simp [List.length_dropLast]

/-- `fn is_ignored(gitignore, path, is_dir)`: first the compiled root
matcher, then (even when that matcher is absent) the nested walk from the
path's parent upward; a path without a file name is never ignored by the
walk. -/
def is_ignored (g : Option (String → Bool → Bool))
    (fs : List String → Option String) (path : List String) (is_dir : Bool) :
    Bool :=
  if (match g with
      | some m => m (String.intercalate "/" path) is_dir
      | none => false) then true
  else
    match path.getLast? with
    | none => false
    | some fname =>
      walk_up fs fname (if path.isEmpty then none else some path.dropLast)

/-! ## Specification-side definitions

These are written from the specification's wording, to be compared with the
embedded source functions above. -/

mutual

/-- Modelled from the spec: "the flattener's output order is exactly the
pre-order depth-first traversal of expanded, loaded nodes" — the node, then
(only for an expanded directory whose children are loaded) its children's
traversals in order. -/
def preorder_nodes : Node → List Node
  | .mk p d e children i ik s m sc na ig =>
    .mk p d e children i ik s m sc na ig ::
      (match d && e, children with
       | true, some cs => preorder_forest cs
       | _, _ => [])

def preorder_forest : List Node → List Node
  | [] => []
  | c :: rest => preorder_nodes c ++ preorder_forest rest

end

/-- The node fields that `collect_visible` copies verbatim into a
`VisibleEntry` (everything except the per-render `indices`, `pfx` and
`metrics`). -/
def node_fields (n : Node) :
    String × Bool × String × String × String × String × Nat × String × Bool :=
  (n.path, n.is_dir, n.icon, n.icon_key, n.status, n.modified,
    n.subtree_changes, n.name, n.ignored)

/-- The corresponding projection of a `VisibleEntry`. -/
def entry_fields (e : VisibleEntry) :
    String × Bool × String × String × String × String × Nat × String × Bool :=
  (e.path, e.is_dir, e.icon, e.icon_key, e.status, e.modified,
    e.subtree_changes, e.name, e.ignored)

/-- Modelled from the spec: whether an index path addresses a loaded child at
each step (the soundness domain of `node_at`). -/
def valid_path : Node → List Nat → Bool
  | _, [] => true
  | n, i :: rest =>
    match n.children with
    | some cs =>
      match cs.get? i with
      | some c => valid_path c rest
      | none => false
    | none => false

/-- Modelled from the spec: for the node reached from `n` along index path
`p`, one flag per ancestor level (starting at `n` itself, whose own
last-sibling flag is `is_last`): `true` when that ancestor "still has
unrendered later siblings", i.e. is not the last of its sibling list. -/
def chain_bars (n : Node) (is_last : Bool) : List Nat → List Bool
  | [] => []
  | i :: rest =>
    (!is_last) ::
      (match n.children with
       | some cs =>
         match cs.get? i with
         | some c => chain_bars c (i == cs.length - 1) rest
         | none => []
       | none => [])

/-- Modelled from the spec: whether the node reached from `n` along `p` is
the last child of its parent (`is_last` for `n` itself). -/
def is_last_at (n : Node) (is_last : Bool) : List Nat → Bool
  | [] => is_last
  | i :: rest =>
    match n.children with
    | some cs =>
      match cs.get? i with
      | some c => is_last_at c (i == cs.length - 1) rest
      | none => false
    | none => false

/-! ## An induction principle for the nested tree type -/

theorem Node.sizeOf_children_lt (n : Node) (cs : List Node)
    (h : n.children = some cs) : sizeOf cs < sizeOf n := by
  cases n with
  | mk p d e ch i ik s m sc na ig =>
    simp only [Node.children] at h
    subst h
    simp
    omega

set_option linter.unusedVariables false in
theorem Node.ind (motive : Node → Prop)
    (step : ∀ n : Node,
      (∀ cs, n.children = some cs → ∀ c ∈ cs, motive c) → motive n) :
    ∀ n, motive n :=
  fun n => step n (fun cs hcs c hc => Node.ind motive step c)
termination_by n => sizeOf n
decreasing_by
  have h1 : sizeOf c < sizeOf cs := List.sizeOf_lt_of_mem hc
  have h2 : sizeOf cs < sizeOf n := Node.sizeOf_children_lt n cs hcs
  omega

/-! ## Flattener theorems -/

theorem collect_children_map_preorder (cs : List Node)
    (hmem : ∀ c ∈ cs, ∀ (indices : List Nat) (bars : List Bool)
        (is_root is_last : Bool) (rm : String),
      (collect_visible c indices bars is_root is_last rm).map entry_fields
        = (preorder_nodes c).map node_fields) :
    ∀ (ind : List Nat) (bars : List Bool) (idx last_index : Nat) (rm : String),
      (collect_children cs ind bars idx last_index rm).map entry_fields
        = (preorder_forest cs).map node_fields := by
  induction cs with
  | nil =>
    intro ind bars idx last_index rm
    simp [collect_children, preorder_forest]
  | cons c rest ihl =>
    intro ind bars idx last_index rm
    simp only [collect_children, preorder_forest, List.map_append]
    rw [hmem c (by simp),
      ihl (fun c hc => hmem c (by simp [hc])) ind bars (idx + 1) last_index rm]

theorem collect_visible_map_preorder (n : Node) :
    ∀ (indices : List Nat) (bars : List Bool) (is_root is_last : Bool)
      (rm : String),
      (collect_visible n indices bars is_root is_last rm).map entry_fields
        = (preorder_nodes n).map node_fields := by
  induction n using Node.ind with
  | step n ih =>
    cases n with
    | mk p d e children i ik s m sc na ig =>
      intro indices bars is_root is_last rm
      simp only [Node.children] at ih
      cases d with
      | false =>
        simp [collect_visible, preorder_nodes, entry_fields, node_fields,
          Node.path, Node.is_dir, Node.icon, Node.icon_key, Node.status,
          Node.modified, Node.subtree_changes, Node.name, Node.ignored]
      | true =>
        cases e with
        | false =>
          simp [collect_visible, preorder_nodes, entry_fields, node_fields,
            Node.path, Node.is_dir, Node.icon, Node.icon_key, Node.status,
            Node.modified, Node.subtree_changes, Node.name, Node.ignored]
        | true =>
          cases children with
          | none =>
            simp [collect_visible, preorder_nodes, entry_fields, node_fields,
              Node.path, Node.is_dir, Node.icon, Node.icon_key, Node.status,
              Node.modified, Node.subtree_changes, Node.name, Node.ignored]
          | some cs =>
            simp only [collect_visible, preorder_nodes, Bool.and_self,
              List.map_cons, List.cons.injEq, entry_fields, node_fields,
              Node.path, Node.is_dir, Node.icon, Node.icon_key, Node.status,
              Node.modified, Node.subtree_changes, Node.name, Node.ignored]
            refine ⟨by simp, ?_⟩
            exact collect_children_map_preorder cs (ih cs rfl) indices
              (bars ++ [!is_last]) 0 (cs.length - 1) rm

/-- C1: the flattener emits exactly one `VisibleEntry` per node, in pre-order
depth-first order, descending into a directory's children only when it is
expanded and loaded (first two conjuncts: the projected entry list is the
projected pre-order node list, so in particular the lengths agree); and
flattening is deterministic — equal trees and accumulator state yield
identical output (last conjunct; in this pure embedding the flattener is a
function, so determinism is congruence). -/
theorem C1_flattener_is_preorder_and_deterministic :
    (∀ (n : Node) (indices : List Nat) (bars : List Bool)
       (is_root is_last : Bool) (rm : String),
      (collect_visible n indices bars is_root is_last rm).map entry_fields
        = (preorder_nodes n).map node_fields) ∧
    (∀ (n : Node) (indices : List Nat) (bars : List Bool)
       (is_root is_last : Bool) (rm : String),
      (collect_visible n indices bars is_root is_last rm).length
        = (preorder_nodes n).length) ∧
    (∀ (n n' : Node) (indices : List Nat) (bars : List Bool)
       (is_root is_last : Bool) (rm : String), n = n' →
      collect_visible n indices bars is_root is_last rm
        = collect_visible n' indices bars is_root is_last rm) := by
  refine ⟨collect_visible_map_preorder, ?_, ?_⟩
  · intro n indices bars is_root is_last rm
    have h := collect_visible_map_preorder n indices bars is_root is_last rm
    calc (collect_visible n indices bars is_root is_last rm).length
        = ((collect_visible n indices bars is_root is_last rm).map
            entry_fields).length := by simp
      _ = ((preorder_nodes n).map node_fields).length := by rw [h]
      _ = (preorder_nodes n).length := by simp
  · intro n n' indices bars is_root is_last rm hnn
    rw [hnn]

/-! ## Entry characterization: index paths, addressed nodes, prefixes -/

/-- The per-level prefix character: a vertical bar for an ancestor that still
has later siblings, a space otherwise. -/
def bar_char (b : Bool) : Char := if b then '│' else ' '

theorem make_pfx_toList (bars : List Bool) (il : Bool) :
    (make_pfx bars il).toList
      = bars.map bar_char ++ [if il then '└' else '├'] := rfl

theorem collect_children_mem (cs : List Node) :
    ∀ (ind : List Nat) (bars : List Bool) (idx0 last_index : Nat) (rm : String)
      (e : VisibleEntry),
      e ∈ collect_children cs ind bars idx0 last_index rm →
      ∃ k c, cs.get? k = some c ∧
        e ∈ collect_visible c (ind ++ [idx0 + k]) bars false
          ((idx0 + k) == last_index) rm := by
  induction cs with
  | nil =>
    intro ind bars idx0 last_index rm e he
    simp [collect_children] at he
  | cons c rest ih =>
    intro ind bars idx0 last_index rm e he
    simp only [collect_children, List.mem_append] at he
    cases he with
    | inl h =>
      exact ⟨0, c, rfl, by simpa using h⟩
    | inr h =>
      obtain ⟨k, c', hk, hc⟩ := ih ind bars (idx0 + 1) last_index rm e h
      refine ⟨k + 1, c', by simpa using hk, ?_⟩
      have harith : idx0 + 1 + k = idx0 + (k + 1) := by omega
      rw [harith] at hc
      exact hc

theorem make_pfx_chain_nil (n : Node) (bars : List Bool) (il : Bool) :
    (make_pfx bars il).toList
      = (bars ++ chain_bars n il []).map bar_char
        ++ [if is_last_at n il [] then '└' else '├'] := by
  have h := make_pfx_toList bars il
  simpa [chain_bars, is_last_at] using h

theorem collect_visible_entry_spec (n : Node) :
    ∀ (ind : List Nat) (bars : List Bool) (il : Bool) (rm : String)
      (e : VisibleEntry),
      e ∈ collect_visible n ind bars false il rm →
      ∃ p, e.indices = ind ++ p ∧
        (∃ m, node_at n p = some m ∧ entry_fields e = node_fields m) ∧
        e.pfx.toList
          = (bars ++ chain_bars n il p).map bar_char
            ++ [if is_last_at n il p then '└' else '├'] := by
  induction n using Node.ind with
  | step n ih =>
    cases n with
    | mk pa d ex children i ik s m sc na ig =>
      intro ind bars il rm e he
      simp only [Node.children] at ih
      cases d with
      | false =>
        rw [collect_visible] at he
        case x_4 => simp
        rcases List.mem_cons.mp he with hown | hrest
        · subst hown
          exact ⟨[], by simp, ⟨_, rfl, rfl⟩, make_pfx_chain_nil _ bars il⟩
        · simp at hrest
      | true =>
        cases ex with
        | false =>
          rw [collect_visible] at he
          case x_4 => simp
          rcases List.mem_cons.mp he with hown | hrest
          · subst hown
            exact ⟨[], by simp, ⟨_, rfl, rfl⟩, make_pfx_chain_nil _ bars il⟩
          · simp at hrest
        | true =>
          cases children with
          | none =>
            rw [collect_visible] at he
            case x_4 => simp
            rcases List.mem_cons.mp he with hown | hrest
            · subst hown
              exact ⟨[], by simp, ⟨_, rfl, rfl⟩, make_pfx_chain_nil _ bars il⟩
            · simp at hrest
          | some cs =>
            rw [collect_visible] at he
            case heq => simp
            rcases List.mem_cons.mp he with hown | hrest
            · subst hown
              exact ⟨[], by simp, ⟨_, rfl, rfl⟩, make_pfx_chain_nil _ bars il⟩
            · replace hrest :
                  e ∈ collect_children cs ind (bars ++ [!il]) 0 (cs.length - 1) rm := by
                simpa using hrest
              obtain ⟨k, c, hk, hc⟩ := collect_children_mem cs ind (bars ++ [!il]) 0
                (cs.length - 1) rm e hrest
              have hmemc : c ∈ cs := List.get?_mem hk
              have hc' : e ∈ collect_visible c (ind ++ [k]) (bars ++ [!il]) false
                  (k == cs.length - 1) rm := by
                simpa using hc
              obtain ⟨p', hip, ⟨mnd, hnd, hef⟩, hpfx⟩ :=
                ih cs rfl c hmemc (ind ++ [k]) (bars ++ [!il]) (k == cs.length - 1)
                  rm e hc'
              refine ⟨k :: p', ?_, ⟨mnd, ?_, hef⟩, ?_⟩
              · rw [hip]
                simp
              · simp only [node_at, Node.children, hk]
                exact hnd
              · rw [hpfx]
                have hk2 : cs[k]? = some c := by
                  rw [← List.get?_eq_getElem?]
                  exact hk
                simp [chain_bars, is_last_at, Node.children, hk, hk2]

theorem collect_visible_root_entry_spec (t : Node) (rm : String)
    (e : VisibleEntry) (he : e ∈ collect_visible t [] [] true true rm) :
    (∃ m, node_at t e.indices = some m ∧ entry_fields e = node_fields m) ∧
    (e.indices = [] ∨
      e.pfx.toList
        = (chain_bars t true e.indices).map bar_char
          ++ [if is_last_at t true e.indices then '└' else '├']) := by
  cases t with
  | mk pa d ex children i ik s m sc na ig =>
    cases d with
    | false =>
      rw [collect_visible] at he
      case x_4 => simp
      rcases List.mem_cons.mp he with hown | hrest
      · subst hown
        exact ⟨⟨_, rfl, rfl⟩, Or.inl rfl⟩
      · simp at hrest
    | true =>
      cases ex with
      | false =>
        rw [collect_visible] at he
        case x_4 => simp
        rcases List.mem_cons.mp he with hown | hrest
        · subst hown
          exact ⟨⟨_, rfl, rfl⟩, Or.inl rfl⟩
        · simp at hrest
      | true =>
        cases children with
        | none =>
          rw [collect_visible] at he
          case x_4 => simp
          rcases List.mem_cons.mp he with hown | hrest
          · subst hown
            exact ⟨⟨_, rfl, rfl⟩, Or.inl rfl⟩
          · simp at hrest
        | some cs =>
          rw [collect_visible] at he
          case heq => simp
          rcases List.mem_cons.mp he with hown | hrest
          · subst hown
            exact ⟨⟨_, rfl, rfl⟩, Or.inl rfl⟩
          · replace hrest :
                e ∈ collect_children cs [] [!true] 0 (cs.length - 1) rm := by
              simpa using hrest
            obtain ⟨k, c, hk, hc⟩ := collect_children_mem cs [] [!true] 0
              (cs.length - 1) rm e hrest
            have hmemc : c ∈ cs := List.get?_mem hk
            have hc' : e ∈ collect_visible c ([] ++ [k]) [!true] false
                (k == cs.length - 1) rm := by
              simpa using hc
            obtain ⟨p', hip, ⟨mnd, hnd, hef⟩, hpfx⟩ :=
              collect_visible_entry_spec c ([] ++ [k]) [!true]
                (k == cs.length - 1) rm e hc'
            constructor
            · refine ⟨mnd, ?_, hef⟩
              rw [hip]
              simp only [List.nil_append, node_at, Node.children, hk]
              exact hnd
            · refine Or.inr ?_
              rw [hip, hpfx]
              have hk2 : cs[k]? = some c := by
                rw [← List.get?_eq_getElem?]
                exact hk
              simp [chain_bars, is_last_at, Node.children, hk, hk2]

/-! ## ANSI parser theorems -/

/-- Modelled from the spec: a line presented as literal/escape segments —
each segment is a literal run followed by an escape sequence
`ESC [ codes m`, and `fin` is the trailing literal run. -/
def render_segs : List (List Char × List Char) → List Char → List Char
  | [], fin => fin
  | (lit, codes) :: rest, fin =>
    lit ++ '\x1b' :: '[' :: (codes ++ 'm' :: render_segs rest fin)

/-- Modelled from the spec: each pending literal run becomes a span carrying
the style in effect before the escape sequence that follows it, and the
escape's codes then update the running style for the next run. -/
def spec_spans (style : TextStyle) :
    List (List Char × List Char) → List Char → List StyledSpan
  | [], fin => if fin.isEmpty then [] else [⟨fin.asString, style⟩]
  | (lit, codes) :: rest, fin =>
    (if lit.isEmpty then [] else [⟨lit.asString, style⟩]) ++
      spec_spans (apply_sgr codes style) rest fin

theorem ansi_loop_literal (lit : List Char) :
    ∀ (rest : List Char) (style : TextStyle) (buf : List Char),
      (∀ c ∈ lit, c ≠ '\x1b') →
      ansi_loop (lit ++ rest) style buf = ansi_loop rest style (buf ++ lit) := by
  induction lit with
  | nil => intro rest style buf _; simp
  | cons c t ih =>
    intro rest style buf h
    have hc : c ≠ '\x1b' := h c (by simp)
    rw [List.cons_append, ansi_loop, if_neg (by simp [hc])]
    rw [ih rest style (buf ++ [c]) (fun d hd => h d (by simp [hd]))]
    simp

theorem scan_codes_append (codes : List Char) :
    ∀ rest : List Char, 'm' ∉ codes →
      scan_codes (codes ++ 'm' :: rest) = (codes, rest) := by
  induction codes with
  | nil => intro rest _; simp [scan_codes]
  | cons c t ih =>
    intro rest h
    have hc : c ≠ 'm' := by
      intro hcm
      exact h (by simp [hcm])
    rw [List.cons_append, scan_codes, if_neg hc,
      ih rest (fun hm => h (by simp [hm]))]

theorem ansi_loop_escape (codes rest : List Char) (style : TextStyle)
    (buf : List Char) (h : 'm' ∉ codes) :
    ansi_loop ('\x1b' :: '[' :: (codes ++ 'm' :: rest)) style buf
      = (if buf.isEmpty then [] else [⟨buf.asString, style⟩]) ++
          ansi_loop rest (apply_sgr codes style) [] := by
  rw [ansi_loop, if_pos (by simp)]
  simp only [List.tail_cons, scan_codes_append codes rest h]

theorem ansi_loop_render (segs : List (List Char × List Char)) :
    ∀ (fin : List Char) (style : TextStyle),
      (∀ seg ∈ segs, (∀ c ∈ seg.1, c ≠ '\x1b') ∧ 'm' ∉ seg.2) →
      (∀ c ∈ fin, c ≠ '\x1b') →
      ansi_loop (render_segs segs fin) style [] = spec_spans style segs fin := by
  induction segs with
  | nil =>
    intro fin style _ hfin
    have h := ansi_loop_literal fin [] style [] hfin
    simp only [List.append_nil] at h
    rw [render_segs, h, spec_spans, ansi_loop]
    simp
  | cons seg rest ih =>
    intro fin style hsegs hfin
    obtain ⟨lit, codes⟩ := seg
    have hlit : ∀ c ∈ lit, c ≠ '\x1b' := (hsegs (lit, codes) (by simp)).1
    have hm : 'm' ∉ codes := (hsegs (lit, codes) (by simp)).2
    rw [render_segs, ansi_loop_literal lit _ style [] hlit]
    simp only [List.nil_append]
    rw [ansi_loop_escape codes _ style lit hm, spec_spans,
      ih _ (apply_sgr codes style) (fun sg hsg => hsegs sg (by simp [hsg])) hfin]

/-- C6: for every input line presented as literal runs separated by complete
SGR escape sequences, the span parser flushes each pending literal run as a
span carrying the style in effect before the escape sequence that follows
it, then applies the parsed codes to the running style (first conjunct); in
particular `"\x1b[1;32mOK\x1b[0m plain"` parses to exactly the spans
`("OK", bold+green foreground)` then `(" plain", default)` (second
conjunct). -/
theorem C6_spans_carry_pre_update_style :
    (∀ (segs : List (List Char × List Char)) (fin : List Char)
       (style : TextStyle),
      (∀ seg ∈ segs, (∀ c ∈ seg.1, c ≠ '\x1b') ∧ 'm' ∉ seg.2) →
      (∀ c ∈ fin, c ≠ '\x1b') →
      ansi_loop (render_segs segs fin) style [] = spec_spans style segs fin) ∧
    parse_ansi_spans "\x1b[1;32mOK\x1b[0m plain"
      = [⟨"OK", { bold := true, fg := some Color.Green }⟩, ⟨" plain", {}⟩] := by
  constructor
  · intro segs fin style hsegs hfin
    exact ansi_loop_render segs fin style hsegs hfin
  · simp [parse_ansi_spans, ansi_loop, scan_codes, apply_sgr, split_char,
      parse_u16, sgr_loop, ansi_color, List.asString]

/-- C6 witness: the general conjunct applied to the concrete segment list of
the example line (empty literal then codes `1;32`; literal `OK` then codes
`0`; trailing literal ` plain`). -/
theorem C6_spans_carry_pre_update_style_witness :
    ansi_loop
        (render_segs [([], ['1', ';', '3', '2']), (['O', 'K'], ['0'])]
          [' ', 'p', 'l', 'a', 'i', 'n']) {} []
      = spec_spans {} [([], ['1', ';', '3', '2']), (['O', 'K'], ['0'])]
          [' ', 'p', 'l', 'a', 'i', 'n'] :=
  C6_spans_carry_pre_update_style.1
    [([], ['1', ';', '3', '2']), (['O', 'K'], ['0'])]
    [' ', 'p', 'l', 'a', 'i', 'n'] {} (by decide) (by decide)

/-- The SGR codes that the style loop handles; everything else is an
"unknown code". -/
def sgr_known (u : Nat) : Prop :=
  u = 0 ∨ u = 1 ∨ u = 2 ∨ u = 3 ∨ u = 4 ∨ u = 22 ∨ u = 23 ∨ u = 24 ∨
    u = 39 ∨ u = 49 ∨ (30 ≤ u ∧ u ≤ 37) ∨ (90 ≤ u ∧ u ≤ 97) ∨
    (40 ≤ u ∧ u ≤ 47) ∨ (100 ≤ u ∧ u ≤ 107) ∨ u = 38 ∨ u = 48

instance (u : Nat) : Decidable (sgr_known u) := by
  unfold sgr_known
  infer_instance

/-- C7: `38`/`48` introduce extended color and consume their extra
parameters — `; 5 ; N` sets indexed color `N` (for a byte-ranged `N`) and
`; 2 ; R ; G ; B` sets truecolor `(R,G,B)`, for foreground (`38`) and
background (`48`) respectively, the loop continuing after the consumed
parameters — any unknown code is ignored without affecting the rest of the
parse, and the two cited example lines parse to the claimed extended
colors. -/
theorem C7_extended_colors_and_unknown_codes :
    (∀ (style : TextStyle) (n : Nat) (rest : List Nat), n < 256 →
      sgr_loop (38 :: 5 :: n :: rest) style
        = sgr_loop rest { style with fg := some (Color.Indexed n) }) ∧
    (∀ (style : TextStyle) (r g b : Nat) (rest : List Nat),
      r < 256 → g < 256 → b < 256 →
      sgr_loop (38 :: 2 :: r :: g :: b :: rest) style
        = sgr_loop rest { style with fg := some (Color.Rgb r g b) }) ∧
    (∀ (style : TextStyle) (n : Nat) (rest : List Nat), n < 256 →
      sgr_loop (48 :: 5 :: n :: rest) style
        = sgr_loop rest { style with bg := some (Color.Indexed n) }) ∧
    (∀ (style : TextStyle) (r g b : Nat) (rest : List Nat),
      r < 256 → g < 256 → b < 256 →
      sgr_loop (48 :: 2 :: r :: g :: b :: rest) style
        = sgr_loop rest { style with bg := some (Color.Rgb r g b) }) ∧
    (∀ (style : TextStyle) (u : Nat) (rest : List Nat), ¬ sgr_known u →
      sgr_loop (u :: rest) style = sgr_loop rest style) ∧
    parse_ansi_spans "\x1b[38;2;10;20;30mX"
      = [⟨"X", { fg := some (Color.Rgb 10 20 30) }⟩] ∧
    parse_ansi_spans "\x1b[38;5;200mX"
      = [⟨"X", { fg := some (Color.Indexed 200) }⟩] := by
  refine ⟨?_, ?_, ?_, ?_, ?_, ?_, ?_⟩
  · intro style n rest hn
    simp [sgr_loop, parse_extended_color, Nat.mod_eq_of_lt hn]
  · intro style r g b rest hr hg hb
    simp [sgr_loop, parse_extended_color, Nat.mod_eq_of_lt hr,
      Nat.mod_eq_of_lt hg, Nat.mod_eq_of_lt hb]
  · intro style n rest hn
    simp [sgr_loop, parse_extended_color, Nat.mod_eq_of_lt hn]
  · intro style r g b rest hr hg hb
    simp [sgr_loop, parse_extended_color, Nat.mod_eq_of_lt hr,
      Nat.mod_eq_of_lt hg, Nat.mod_eq_of_lt hb]
  · intro style u rest h
    simp only [sgr_known, not_or] at h
    obtain ⟨h0, h1, h2, h3, h4, h22, h23, h24, h39, h49, hf, hbf, hb, hbb,
      h38, h48⟩ := h
    rw [sgr_loop]
    simp [h0, h1, h2, h3, h4, h22, h23, h24, h39, h49, hf, hbf, hb, hbb,
      h38, h48]
  · simp [parse_ansi_spans, ansi_loop, scan_codes, apply_sgr, split_char,
      parse_u16, sgr_loop, ansi_color, parse_extended_color, List.asString]
  · simp [parse_ansi_spans, ansi_loop, scan_codes, apply_sgr, split_char,
      parse_u16, sgr_loop, ansi_color, parse_extended_color, List.asString]

/-- C7 witness: the universally quantified conjuncts applied at concrete
parameters (code 99 is not in the handled set). -/
theorem C7_extended_colors_and_unknown_codes_witness :
    sgr_loop [38, 5, 200] {} = sgr_loop [] { fg := some (Color.Indexed 200) } ∧
    sgr_loop [38, 2, 10, 20, 30] {}
      = sgr_loop [] { fg := some (Color.Rgb 10 20 30) } ∧
    sgr_loop [48, 5, 7] {} = sgr_loop [] { bg := some (Color.Indexed 7) } ∧
    sgr_loop [48, 2, 1, 2, 3] {} = sgr_loop [] { bg := some (Color.Rgb 1 2 3) } ∧
    sgr_loop [99, 1] {} = sgr_loop [1] {} :=
  ⟨C7_extended_colors_and_unknown_codes.1 {} 200 [] (by decide),
   C7_extended_colors_and_unknown_codes.2.1 {} 10 20 30 [] (by decide)
     (by decide) (by decide),
   C7_extended_colors_and_unknown_codes.2.2.1 {} 7 [] (by decide),
   C7_extended_colors_and_unknown_codes.2.2.2.1 {} 1 2 3 [] (by decide)
     (by decide) (by decide),
   C7_extended_colors_and_unknown_codes.2.2.2.2.1 {} 99 [1] (by decide)⟩

/-! ## Index-path addressing theorems -/

theorem node_at_isSome_eq_valid (p : List Nat) :
    ∀ n : Node, (node_at n p).isSome = valid_path n p := by
  induction p with
  | nil => intro n; rfl
  | cons i rest ih =>
    intro n
    cases n with
    | mk pa d e children i2 ik st mo sc na ig =>
      cases children with
      | none => rfl
      | some cs =>
        cases hk : cs[i]? with
        | none => simp [node_at, valid_path, Node.children, hk]
        | some c => simp [node_at, valid_path, Node.children, hk, ih c]

/-- C10: index-path addressing is sound and total — for every tree and every
entry the flattener emits, `node_at` applied to the root and the entry's
index path returns `some` node whose copied fields are exactly the entry's
(first conjunct); and `node_at` succeeds exactly on paths that address a
loaded child at each step, returning `none` (not failing) otherwise (second
conjunct). -/
theorem C10_index_paths_sound_and_total :
    (∀ (t : Node) (rm : String) (e : VisibleEntry),
      e ∈ collect_visible t [] [] true true rm →
      ∃ m, node_at t e.indices = some m ∧ entry_fields e = node_fields m) ∧
    (∀ (n : Node) (p : List Nat), (node_at n p).isSome = valid_path n p) := by
  constructor
  · intro t rm e he
    exact (collect_visible_root_entry_spec t rm e he).1
  · intro n p
    exact node_at_isSome_eq_valid p n

/-! ## Concrete sample trees (used by witnesses and counterexamples) -/

/-- A clean grandchild file `/r/a/g`. -/
def g_file : Node := .mk "/r/a/g" false false none "" "" "  " "" 0 "g" false

/-- `/r/a`, an expanded second-level directory with one grandchild, not the
last child of the root (its sibling `/r/b` follows). -/
def a_dir : Node := .mk "/r/a" true true (some [g_file]) "" "" "  " "" 0 "a/" false

def b_file : Node := .mk "/r/b" false false none "" "" "  " "" 0 "b" false

/-- A 3-level tree: root `/r` with children `/r/a` (expanded, one grandchild
`/r/a/g`) and `/r/b`. -/
def cx_root : Node := .mk "/r" true true (some [a_dir, b_file]) "" "" "  " "" 0 "r/" false

/-- The entry the flattener emits for `/r/a/g` in `cx_root`. -/
def g_entry : VisibleEntry :=
  ⟨[0, 0], " │└", "/r/a/g", false, "", "", "  ", "", 0, "", "g", false⟩

theorem cx_flatten :
    collect_visible cx_root [] [] true true ""
      = [⟨[], "", "/r", true, "", "", "  ", "", 0, "", "r/", false⟩,
         ⟨[0], " ├", "/r/a", true, "", "", "  ", "", 0, "", "a/", false⟩,
         g_entry,
         ⟨[1], " └", "/r/b", false, "", "", "  ", "", 0, "", "b", false⟩] := by
  simp [collect_visible, collect_children, cx_root, a_dir, g_file, b_file,
    make_pfx, g_entry]

/-- C10 witness: the theorem applied to the concrete tree `cx_root` and the
emitted entry for `/r/a/g`, plus the totality conjunct at a dangling path. -/
theorem C10_index_paths_sound_and_total_witness :
    (∃ m, node_at cx_root g_entry.indices = some m ∧
      entry_fields g_entry = node_fields m) ∧
    (node_at cx_root [0, 5]).isSome = valid_path cx_root [0, 5] :=
  ⟨C10_index_paths_sound_and_total.1 cx_root "" g_entry
     (by rw [cx_flatten]; simp),
   C10_index_paths_sound_and_total.2 cx_root [0, 5]⟩

/-! ## Prefix theorems (C8) -/

/-- C8 counterexample: in the 3-level tree `cx_root`, where the second-level
node `/r/a` is not last and has one grandchild, the grandchild's emitted
prefix is `" │└"` — a space for the root level, then the vertical bar, then
the corner — not `"│└"` (one character per ancestor level strictly below the
root) as claimed. -/
theorem C8_counterexample :
    ((collect_visible cx_root [] [] true true "").get? 2).map
        (fun e => e.pfx) = some " │└" ∧
    (" │└" : String) ≠ "│└" := by
  constructor
  · rw [cx_flatten]
    rfl
  · decide

/-- C8 (amended): for every non-root visible entry, the tree-drawing prefix
has one character per ancestor level including the root — a vertical bar if
that ancestor still has later siblings, a space otherwise; the root is
rendered as a last sibling, so its character is always a space — terminated
by a corner if the entry is its parent's last child and a tee otherwise.  In
the 3-level example the grandchild's prefix is space, vertical bar, corner. -/
theorem C8_pfx_one_char_per_level_including_root :
    ∀ (t : Node) (rm : String) (e : VisibleEntry),
      e ∈ collect_visible t [] [] true true rm → e.indices ≠ [] →
      e.pfx.toList
        = (chain_bars t true e.indices).map bar_char
          ++ [if is_last_at t true e.indices then '└' else '├'] := by
  intro t rm e he hne
  rcases (collect_visible_root_entry_spec t rm e he).2 with h | h
  · exact absurd h hne
  · exact h

/-- C8 witness: the amended theorem applied to `cx_root` and the grandchild
entry, whose prefix is `" │└"`. -/
theorem C8_pfx_one_char_per_level_including_root_witness :
    g_entry.pfx.toList
      = (chain_bars cx_root true g_entry.indices).map bar_char
        ++ [if is_last_at cx_root true g_entry.indices then '└' else '├'] :=
  C8_pfx_one_char_per_level_including_root cx_root "" g_entry
    (by rw [cx_flatten]; simp) (by decide)

/-- C1 witness: the traversal conjunct and the determinism conjunct applied
to the concrete tree `cx_root`. -/
theorem C1_flattener_is_preorder_and_deterministic_witness :
    (collect_visible cx_root [] [] true true "").map entry_fields
      = (preorder_nodes cx_root).map node_fields ∧
    collect_visible cx_root [] [] true true ""
      = collect_visible cx_root [] [] true true "" :=
  ⟨C1_flattener_is_preorder_and_deterministic.1 cx_root [] [] true true "",
   C1_flattener_is_preorder_and_deterministic.2.2 cx_root cx_root [] [] true
     true "" rfl⟩

/-! ## Subtree-change count theorems (C2) -/

/-- The directory metadata for the C2 example (`/r/d`). -/
def meta_d : FsMeta := ⟨"/r/d", true, "", "", "", false⟩

/-- File metadata: `/r/d/a` (status `M ` in `gm0`), `/r/d/b` (clean),
`/r/d/c` (status `??` in `gm0`). -/
def meta_a : FsMeta := ⟨"/r/d/a", false, "", "", "", false⟩

def meta_b : FsMeta := ⟨"/r/d/b", false, "", "", "", false⟩

def meta_c : FsMeta := ⟨"/r/d/c", false, "", "", "", false⟩

/-- The status index for the C2 example. -/
def gm0 : List (String × String) := [("/r/d/a", "M "), ("/r/d/c", "??")]

/-- C2: after `build_node`, a file node's subtree-change count is 1 exactly
when its two-character status is non-blank (first conjunct; the status field
is the looked-up code, two blanks when absent) and a directory starts at 0
(second conjunct); after `load_children`, a directory's count is the sum of
its installed children's counts (third conjunct); concretely, a directory
with one clean file and one `M `-status file has count 1, and adding a
`??`-status child makes it 2 (last conjuncts). -/
theorem C2_subtree_change_counts :
    (∀ (gm : List (String × String)) (m : FsMeta), m.is_dir = false →
      (build_node gm m).subtree_changes
        = (if str_trim (build_node gm m).status = "" then 0 else 1)) ∧
    (∀ (gm : List (String × String)) (m : FsMeta), m.is_dir = true →
      (build_node gm m).subtree_changes = 0) ∧
    (∀ (node : Node) (gm : List (String × String)) (entries : List FsMeta)
       (cs : List Node), node.is_dir = true →
      (load_children node gm entries).children = some cs →
      (load_children node gm entries).subtree_changes
        = (cs.map Node.subtree_changes).sum) ∧
    (load_children (build_node gm0 meta_d) gm0 [meta_a, meta_b]).subtree_changes
      = 1 ∧
    (load_children (build_node gm0 meta_d) gm0
      [meta_a, meta_b, meta_c]).subtree_changes = 2 := by
  refine ⟨?_, ?_, ?_, ?_, ?_⟩
  · intro gm m hdir
    cases m with
    | mk pa d ic ik mo ig =>
      simp only [FsMeta.is_dir] at hdir
      subst hdir
      simp only [build_node, Node.subtree_changes, Node.status]
      by_cases h : str_trim (match gm.lookup pa with
        | some s => s
        | none => "  ") = "" <;> simp [h]
  · intro gm m hdir
    cases m with
    | mk pa d ic ik mo ig =>
      simp only [FsMeta.is_dir] at hdir
      subst hdir
      simp [build_node, Node.subtree_changes]
  · intro node gm entries cs hdir hcs
    cases node with
    | mk pa d e ch i ik st mo sc na ig =>
      simp only [Node.is_dir] at hdir
      subst hdir
      simp only [load_children, Node.is_dir, Bool.not_true, Node.children] at hcs ⊢
      simp only [Bool.false_eq_true, if_false, Node.children] at hcs
      cases hcs
      rfl
  · decide
  · decide

/-- C2 witness: the file conjunct at `meta_a`/`gm0` and the directory-sum
conjunct at the two-children example. -/
theorem C2_subtree_change_counts_witness :
    (build_node gm0 meta_a).subtree_changes
      = (if str_trim (build_node gm0 meta_a).status = "" then 0 else 1) ∧
    (load_children (build_node gm0 meta_d) gm0 [meta_a, meta_b]).subtree_changes
      = (((load_children (build_node gm0 meta_d) gm0
            [meta_a, meta_b]).children.getD []).map Node.subtree_changes).sum :=
  ⟨C2_subtree_change_counts.1 gm0 meta_a rfl,
   C2_subtree_change_counts.2.2.1 (build_node gm0 meta_d) gm0 [meta_a, meta_b]
     ((load_children (build_node gm0 meta_d) gm0 [meta_a, meta_b]).children.getD [])
     rfl rfl⟩

/-! ## Delete-flow error paths (C9) -/

/-- C9: arming a delete with `d` and then pressing `Esc` leaves the tree
unmodified and clears `pending_delete` (first conjunct, for every starting
state); and when the trash call fails during `y` confirmation of an armed,
non-root entry, the tree is unmodified, the status line carries the error,
and `pending_delete` is cleared (second conjunct). -/
theorem C9_cancel_and_failure_leave_tree_unmodified :
    (∀ a : App, (cancel_delete (prompt_delete a)).root = a.root ∧
      (cancel_delete (prompt_delete a)).pending_delete = none) ∧
    (∀ (a : App) (idx : Nat) (entry : VisibleEntry) (err : String),
      a.pending_delete = some idx →
      a.visible.get? idx = some entry →
      entry.indices ≠ [] →
      (confirm_delete a (Except.error err)).root = a.root ∧
      (confirm_delete a (Except.error err)).status = "delete failed: " ++ err ∧
      (confirm_delete a (Except.error err)).pending_delete = none) := by
  constructor
  · intro a
    unfold prompt_delete cancel_delete
    cases hv : a.visible.get? a.focus with
    | none => cases hp : a.pending_delete <;> simp [hp]
    | some entry =>
      by_cases hie : entry.indices.isEmpty
      · simp only [hie, if_true]
        cases hp : a.pending_delete <;> simp [hp]
      · simp [hie]
  · intro a idx entry err hp hv hne
    have hv2 : a.visible[idx]? = some entry := by
      rw [← List.get?_eq_getElem?]
      exact hv
    simp [confirm_delete, hp, hv2, hne]

/-- C9 witness: both conjuncts at a concrete armed state over `cx_root`
(entry index path `[0, 0]`, pending index 0). -/
theorem C9_cancel_and_failure_leave_tree_unmodified_witness :
    ((cancel_delete (prompt_delete ⟨cx_root, [g_entry], 0, "", none⟩)).root
        = cx_root ∧
      (cancel_delete (prompt_delete ⟨cx_root, [g_entry], 0, "", none⟩)).pending_delete
        = none) ∧
    ((confirm_delete ⟨cx_root, [g_entry], 0, "", some 0⟩
        (Except.error "no trash")).root = cx_root ∧
      (confirm_delete ⟨cx_root, [g_entry], 0, "", some 0⟩
        (Except.error "no trash")).status = "delete failed: " ++ "no trash" ∧
      (confirm_delete ⟨cx_root, [g_entry], 0, "", some 0⟩
        (Except.error "no trash")).pending_delete = none) :=
  ⟨C9_cancel_and_failure_leave_tree_unmodified.1 ⟨cx_root, [g_entry], 0, "", none⟩,
   C9_cancel_and_failure_leave_tree_unmodified.2 ⟨cx_root, [g_entry], 0, "", some 0⟩
     0 g_entry "no trash" rfl rfl (by decide)⟩

/-! ## Delete-success theorems (C3) -/

theorem node_at_append (p : List Nat) :
    ∀ (q : List Nat) (n : Node),
      node_at n (p ++ q) = (node_at n p).bind (fun m => node_at m q) := by
  induction p with
  | nil => intro q n; rfl
  | cons i rest ih =>
    intro q n
    cases n with
    | mk pa d e children ic ik st mo sc na ig =>
      cases children with
      | none => rfl
      | some cs =>
        cases hk : cs[i]? with
        | none => simp [node_at, Node.children, hk]
        | some c => simp [node_at, Node.children, hk, ih]

theorem node_at_single (parent : Node) (cs : List Node) (k : Nat)
    (hcs : parent.children = some cs) : node_at parent [k] = cs.get? k := by
  cases parent with
  | mk pa d e children ic ik st mo sc na ig =>
    simp only [Node.children] at hcs
    subst hcs
    cases hk : cs[k]? with
    | none => simp [node_at, Node.children, hk]
    | some c => simp [node_at, Node.children, hk]

theorem modify_at_nil (n : Node) (f : Node → Node) : modify_at n [] f = f n := rfl

theorem remove_child_subtree_changes (k : Nat) (n : Node) :
    (remove_child k n).subtree_changes = n.subtree_changes := by
  cases n with
  | mk pa d e children ic ik st mo sc na ig =>
    cases children <;> rfl

theorem modify_at_subtree_changes (f : Node → Node)
    (hf : ∀ x, (f x).subtree_changes = x.subtree_changes) :
    ∀ (p : List Nat) (n : Node),
      (modify_at n p f).subtree_changes = n.subtree_changes := by
  intro p n
  cases p with
  | nil => exact hf n
  | cons i rest =>
    cases n with
    | mk pa d e children ic ik st mo sc na ig =>
      cases children with
      | none => rfl
      | some cs =>
        cases hk : cs[i]? with
        | none => simp [modify_at, Node.subtree_changes, List.get?_eq_getElem?, hk]
        | some c => simp [modify_at, Node.subtree_changes, List.get?_eq_getElem?, hk]

theorem modify_at_node_at_prefix (f : Node → Node) (q : List Nat) :
    ∀ (r : List Nat) (n m : Node), node_at n (q ++ r) = some m →
      node_at (modify_at n (q ++ r) f) q
        = (node_at n q).map (fun x => modify_at x r f) := by
  induction q with
  | nil => intro r n m _; rfl
  | cons i q2 ih =>
    intro r n m h
    cases n with
    | mk pa d e children ic ik st mo sc na ig =>
      cases children with
      | none => simp [node_at, Node.children] at h
      | some cs =>
        cases hk : cs.get? i with
        | none =>
          rw [show ((i :: q2) ++ r) = i :: (q2 ++ r) from rfl] at h
          simp [node_at, Node.children,
            (List.get?_eq_getElem? cs i) ▸ hk] at h
        | some c =>
          have hk2 : cs[i]? = some c := (List.get?_eq_getElem? cs i) ▸ hk
          have hlt : i < cs.length := by
            have := List.getElem?_eq_some_iff.mp hk2
            exact this.1
          have hmc : node_at c (q2 ++ r) = some m := by
            rw [show ((i :: q2) ++ r) = i :: (q2 ++ r) from rfl] at h
            simpa [node_at, Node.children, hk2] using h
          rw [show ((i :: q2) ++ r) = i :: (q2 ++ r) from rfl]
          rw [modify_at]
          simp only [hk]
          have hset : (cs.set i (modify_at c (q2 ++ r) f))[i]? =
              some (modify_at c (q2 ++ r) f) := by
            exact List.getElem?_set_self hlt
          simp only [node_at, Node.children, List.get?_eq_getElem?, hset, hk2]
          rw [ih r c m hmc]

/-- The subtree-change count of the node addressed by `p` (0 when the path
does not resolve). -/
def count_at (n : Node) (p : List Nat) : Nat :=
  match node_at n p with
  | some m => m.subtree_changes
  | none => 0

/-- A dirty file `/r/d/a` (status `M `, count 1) inside `/r/d` (count 1)
inside the root `/r` (count 1). -/
def c3_file : Node := .mk "/r/d/a" false false none "" "" "M " "" 1 "a" false

def c3_dir : Node := .mk "/r/d" true true (some [c3_file]) "" "" "  " "" 1 "d/" false

def c3_root : Node := .mk "/r" true true (some [c3_dir]) "" "" "  " "" 1 "r/" false

/-- The entry the flattener emits for `/r/d/a` in `c3_root`. -/
def c3_entry : VisibleEntry :=
  ⟨[0, 0], "  └", "/r/d/a", false, "", "", "M ", "", 1, "", "a", false⟩

theorem c3_flatten :
    collect_visible c3_root [] [] true true ""
      = [⟨[], "", "/r", true, "", "", "  ", "", 1, "", "r/", false⟩,
         ⟨[0], " └", "/r/d", true, "", "", "  ", "", 1, "", "d/", false⟩,
         c3_entry] := by
  simp [collect_visible, collect_children, c3_root, c3_dir, c3_file,
    make_pfx, c3_entry]

/-- The browsing state focused on `/r/d/a`, before `d` is pressed. -/
def c3_base : App :=
  ⟨c3_root, collect_visible c3_root [] [] true true "", 2, "", none⟩

theorem c3_confirm_root :
    (confirm_delete (prompt_delete c3_base) (Except.ok ())).root
      = modify_at c3_root [0] (remove_child 0) := by
  have hbv : c3_base.visible = collect_visible c3_root [] [] true true "" := rfl
  have hprompt : prompt_delete c3_base
      = { c3_base with
          pending_delete := some 2
          status := "Delete " ++ "a" ++ "? y to confirm, Esc to cancel" } := by
    unfold prompt_delete
    rw [hbv, c3_flatten]
    rfl
  rw [hprompt]
  unfold confirm_delete
  rw [show ({ c3_base with
      pending_delete := some 2
      status := "Delete " ++ "a" ++ "? y to confirm, Esc to cancel" } : App).visible
    = collect_visible c3_root [] [] true true "" from rfl, c3_flatten]
  rfl

/-- C3 counterexample: deleting `/r/d/a` (subtree count 1) with `d` then a
successful `y` removes the node — its parent's children become empty — but
the parent directory's count stays 1 instead of dropping by the removed
node's count to 0 as the claim requires. -/
theorem C3_counterexample :
    count_at c3_root [0, 0] = 1 ∧
    (node_at (confirm_delete (prompt_delete c3_base) (Except.ok ())).root [0]).map
        Node.children = some (some []) ∧
    count_at (confirm_delete (prompt_delete c3_base) (Except.ok ())).root [0]
      ≠ count_at c3_root [0] - count_at c3_root [0, 0] := by
  refine ⟨rfl, ?_, ?_⟩
  · rw [c3_confirm_root]
    rfl
  · rw [c3_confirm_root]
    decide

/-- C3 (amended): for every armed state whose focused entry addresses a node
(non-empty index path `… ++ [k]`, resolvable parent with loaded children,
`k` in range), a successful `y` confirmation removes exactly the focused
node — index `k`, the node the entry addresses — from its parent's children
(conjuncts 1–4), while the subtree-change counts of the parent and of every
ancestor are left unchanged, not decremented: `confirm_delete` does not
recompute aggregate counts (they are refreshed only by the periodic resync)
(last conjunct). -/
theorem C3_delete_removes_one_node_counts_unchanged :
    ∀ (a : App) (idx : Nat) (entry : VisibleEntry) (parent : Node)
      (cs : List Node) (k : Nat),
      a.pending_delete = some idx →
      a.visible.get? idx = some entry →
      entry.indices ≠ [] →
      entry.indices.getLast? = some k →
      node_at a.root entry.indices.dropLast = some parent →
      parent.children = some cs →
      k < cs.length →
      node_at a.root entry.indices = cs.get? k ∧
      node_at (confirm_delete a (Except.ok ())).root entry.indices.dropLast
        = some (remove_child k parent) ∧
      (remove_child k parent).children = some (cs.eraseIdx k) ∧
      (cs.eraseIdx k).length = cs.length - 1 ∧
      (∀ q : List Nat, q <+: entry.indices.dropLast →
        count_at (confirm_delete a (Except.ok ())).root q = count_at a.root q) := by
  intro a idx entry parent cs k hp hv hne hlast hpar hcs hk
  have hv2 : a.visible[idx]? = some entry := by
    rw [← List.get?_eq_getElem?]
    exact hv
  have hroot : (confirm_delete a (Except.ok ())).root
      = modify_at a.root entry.indices.dropLast (remove_child k) := by
    simp [confirm_delete, hp, hv2, hne, List.getLastD_eq_getLast?, hlast]
  have hsplit : entry.indices.dropLast ++ [k] = entry.indices :=
    List.dropLast_append_getLast? k hlast
  refine ⟨?_, ?_, ?_, ?_, ?_⟩
  · rw [← hsplit, node_at_append, hpar]
    simpa using node_at_single parent cs k hcs
  · rw [hroot]
    have h0 : node_at a.root (entry.indices.dropLast ++ []) = some parent := by
      simpa using hpar
    have hmod := modify_at_node_at_prefix (remove_child k)
      entry.indices.dropLast [] a.root parent h0
    rw [List.append_nil] at hmod
    rw [hmod, hpar]
    rfl
  · cases parent with
    | mk pa d e ch ic ik st mo sc na ig =>
      simp only [Node.children] at hcs
      subst hcs
      rfl
  · exact List.length_eraseIdx_of_lt hk
  · intro q hq
    obtain ⟨r, hqr⟩ := hq
    rw [hroot, ← hqr]
    have hqr2 : node_at a.root (q ++ r) = some parent := by
      rw [hqr]
      exact hpar
    have hmod := modify_at_node_at_prefix (remove_child k) q r a.root parent hqr2
    have hbind := node_at_append q r a.root
    rw [hqr2] at hbind
    cases hq2 : node_at a.root q with
    | none =>
      rw [hq2] at hbind
      simp at hbind
    | some mq =>
      unfold count_at
      rw [hmod, hq2]
      simp [modify_at_subtree_changes (remove_child k)
        (remove_child_subtree_changes k) r mq]

/-- The armed state used by the C3 witness: `/r/d/a` focused and armed. -/
def c3_armed : App := ⟨c3_root, [c3_entry], 0, "", some 0⟩

/-- C3 witness: the amended theorem applied to the concrete armed state —
the parent's children lose exactly the focused node and the root's count is
unchanged. -/
theorem C3_delete_removes_one_node_counts_unchanged_witness :
    node_at (confirm_delete c3_armed (Except.ok ())).root [0]
      = some (remove_child 0 c3_dir) ∧
    count_at (confirm_delete c3_armed (Except.ok ())).root []
      = count_at c3_root [] :=
  ⟨(C3_delete_removes_one_node_counts_unchanged c3_armed 0 c3_entry c3_dir
      [c3_file] 0 rfl rfl (by decide) rfl rfl rfl (by decide)).2.1,
   (C3_delete_removes_one_node_counts_unchanged c3_armed 0 c3_entry c3_dir
      [c3_file] 0 rfl rfl (by decide) rfl rfl rfl (by decide)).2.2.2.2 []
     (by simp)⟩

/-! ## Git status parser theorems (C4) -/

/-- The porcelain `-z` byte stream of one staged-rename record,
`R  new NUL old NUL`: in the documented `-z` field order the first
NUL-terminated field is the destination (`new`), the second the origin
(`old`). -/
def c4_bytes : List Nat :=
  [82, 32, 32, 110, 101, 119, 0, 111, 108, 100, 0]

/-- The repository root used in the C4 evaluation (`g`). -/
def c4_root : List Nat := [103]

/-- C4 evaluation at the failing input: the parser keys the rename record
under the second NUL-terminated field — the origin path `old` — and leaves
the destination path `new` unmapped, while an ordinary record
(` M a NUL`) is keyed under its path with its two-letter code. -/
theorem C4_rename_record_keyed_by_origin :
    status_lookup (parse_status_bytes c4_root c4_root c4_bytes)
        (c4_root ++ [47] ++ [111, 108, 100]) = some "R " ∧
    status_lookup (parse_status_bytes c4_root c4_root c4_bytes)
        (c4_root ++ [47] ++ [110, 101, 119]) = none ∧
    status_lookup (parse_status_bytes c4_root c4_root [32, 77, 32, 97, 0])
        (c4_root ++ [47] ++ [97]) = some " M" := by
  refine ⟨?_, ?_, ?_⟩ <;>
    simp [parse_status_bytes, status_lookup, read_c_string, drop_nul,
      skip_space, path_join, format_status, List.lookup, c4_root, c4_bytes,
      List.isPrefixOf]

/-! ## Ignore predicate theorems (C5) -/

/-- A filesystem in which the subdirectory `r/sub` has a `.gitignore`
containing the single line `secret`, and no other `.gitignore` exists (in
particular none at the repository root `r`). -/
def c5_fs : List String → Option String :=
  fun d => if d = ["r", "sub"] then some "secret" else none

/-- C5 counterexample: with no compiled root matcher (`none`: root ignore
file missing or failed to compile), `is_ignored` still returns `true` for
`r/sub/secret` when a nested `.gitignore` names it — and `false` on a
filesystem without that nested file.  The two filesystem states agree on the
root-level ignore file (absent in both), yet the verdicts differ, and the
missing-root-file verdict is not `false` for every path. -/
theorem C5_counterexample :
    is_ignored none c5_fs ["r", "sub", "secret"] false = true ∧
    is_ignored none (fun _ => none) ["r", "sub", "secret"] false = false := by
  constructor <;>
    simp [is_ignored, walk_up, ignore_lines_match, split_char, trim_chars,
      c5_fs]

theorem walk_up_congr (fname : String) (fs1 fs2 : List String → Option String) :
    ∀ (n : Nat) (d : List String), d.length ≤ n →
      (∀ q, q <+: d → fs1 q = fs2 q) →
      walk_up fs1 fname (some d) = walk_up fs2 fname (some d) := by
  intro n
  induction n with
  | zero =>
    intro d hlen hagree
    have hd : d = [] := List.eq_nil_of_length_eq_zero (Nat.le_zero.mp hlen)
    subst hd
    rw [walk_up, walk_up, hagree [] (List.prefix_refl [])]
    simp [walk_up]
  | succ n ih =>
    intro d hlen hagree
    cases d with
    | nil =>
      rw [walk_up, walk_up, hagree [] (List.prefix_refl [])]
      simp [walk_up]
    | cons a t =>
      rw [walk_up, walk_up, hagree (a :: t) (List.prefix_refl _)]
      simp only [List.isEmpty_cons, Bool.false_eq_true, if_false]
      have hlen2 : (a :: t).dropLast.length ≤ n := by
        simp only [List.length_dropLast, List.length_cons] at *
        omega
      rw [ih (a :: t).dropLast hlen2
        (fun q hq => hagree q (hq.trans (List.dropLast_prefix _)))]

theorem walk_up_none (fname : String) (fs : List String → Option String) :
    ∀ (n : Nat) (d : List String), d.length ≤ n →
      (∀ q, q <+: d → fs q = none) →
      walk_up fs fname (some d) = false := by
  intro n
  induction n with
  | zero =>
    intro d hlen hnone
    have hd : d = [] := List.eq_nil_of_length_eq_zero (Nat.le_zero.mp hlen)
    subst hd
    rw [walk_up, hnone [] (List.prefix_refl [])]
    simp [walk_up]
  | succ n ih =>
    intro d hlen hnone
    cases d with
    | nil =>
      rw [walk_up, hnone [] (List.prefix_refl [])]
      simp [walk_up]
    | cons a t =>
      rw [walk_up, hnone (a :: t) (List.prefix_refl _)]
      simp only [List.isEmpty_cons, Bool.false_eq_true, if_false, Bool.false_or]
      have hlen2 : (a :: t).dropLast.length ≤ n := by
        simp only [List.length_dropLast, List.length_cons] at *
        omega
      exact ih (a :: t).dropLast hlen2
        (fun q hq => hnone q (hq.trans (List.dropLast_prefix _)))

theorem prefix_eq_or_prefix_dropLast {q d : List String} (h : q <+: d) :
    q = d ∨ q <+: d.dropLast := by
  obtain ⟨r, hr⟩ := h
  cases r with
  | nil =>
    left
    simpa using hr
  | cons x xs =>
    right
    rw [← hr, List.dropLast_append_cons]
    exact List.prefix_append q ((x :: xs).dropLast)

theorem walk_up_iff (fname : String) (fs : List String → Option String) :
    ∀ (n : Nat) (d : List String), d.length ≤ n →
      (walk_up fs fname (some d) = true ↔
        ∃ q, q <+: d ∧
          ∃ c, fs q = some c ∧ ignore_lines_match c fname = true) := by
  intro n
  induction n with
  | zero =>
    intro d hlen
    have hd : d = [] := List.eq_nil_of_length_eq_zero (Nat.le_zero.mp hlen)
    subst hd
    rw [walk_up]
    simp only [List.isEmpty_nil, if_true, walk_up, Bool.or_false]
    constructor
    · intro hm
      cases hc : fs [] with
      | none => rw [hc] at hm; exact absurd hm (by simp)
      | some c =>
        rw [hc] at hm
        exact ⟨[], List.prefix_refl [], c, hc, hm⟩
    · rintro ⟨q, hq, c, hc, hm⟩
      have hq0 : q = [] := List.prefix_nil.mp hq
      subst hq0
      rw [hc]
      exact hm
  | succ n ih =>
    intro d hlen
    cases d with
    | nil =>
      rw [walk_up]
      simp only [List.isEmpty_nil, if_true, walk_up, Bool.or_false]
      constructor
      · intro hm
        cases hc : fs [] with
        | none => rw [hc] at hm; exact absurd hm (by simp)
        | some c =>
          rw [hc] at hm
          exact ⟨[], List.prefix_refl [], c, hc, hm⟩
      · rintro ⟨q, hq, c, hc, hm⟩
        have hq0 : q = [] := List.prefix_nil.mp hq
        subst hq0
        rw [hc]
        exact hm
    | cons a t =>
      rw [walk_up]
      simp only [List.isEmpty_cons, Bool.false_eq_true, if_false,
        Bool.or_eq_true]
      have hlen2 : (a :: t).dropLast.length ≤ n := by
        simp only [List.length_dropLast, List.length_cons] at *
        omega
      constructor
      · intro hor
        cases hor with
        | inl hm =>
          cases hc : fs (a :: t) with
          | none => rw [hc] at hm; exact absurd hm (by simp)
          | some c =>
            rw [hc] at hm
            exact ⟨a :: t, List.prefix_refl _, c, hc, hm⟩
        | inr hw =>
          obtain ⟨q, hq, c, hc, hm⟩ := (ih (a :: t).dropLast hlen2).mp hw
          exact ⟨q, hq.trans (List.dropLast_prefix _), c, hc, hm⟩
      · rintro ⟨q, hq, c, hc, hm⟩
        cases prefix_eq_or_prefix_dropLast hq with
        | inl heq =>
          subst heq
          left
          rw [hc]
          exact hm
        | inr hq2 =>
          right
          exact (ih (a :: t).dropLast hlen2).mpr ⟨q, hq2, c, hc, hm⟩

/-- C5 (amended): the verdict of `is_ignored` is determined by the compiled
root-level patterns together with the `.gitignore` files of the path's
ancestor directories — any two filesystem states that agree on those
ancestor `.gitignore` files (and share the compiled matcher) yield the same
verdict (first conjunct) — and when the root-level ignore file is missing or
fails to compile, `is_ignored` returns `true` exactly when some ancestor
directory's `.gitignore` has a line naming the path's file name, i.e. it
returns `false` exactly when no ancestor `.gitignore` names the file
(second conjunct, a biconditional); in particular it returns `false` for
every path whose ancestors carry no `.gitignore` at all (third conjunct). -/
theorem C5_ignore_depends_on_root_patterns_and_ancestor_files :
    (∀ (g : Option (String → Bool → Bool))
       (fs1 fs2 : List String → Option String) (path : List String) (d : Bool),
      (∀ q, q <+: path.dropLast → fs1 q = fs2 q) →
      is_ignored g fs1 path d = is_ignored g fs2 path d) ∧
    (∀ (fs : List String → Option String) (path : List String) (d : Bool),
      is_ignored none fs path d = true ↔
        ∃ fname, path.getLast? = some fname ∧
          ∃ q, q <+: path.dropLast ∧
            ∃ c, fs q = some c ∧ ignore_lines_match c fname = true) ∧
    (∀ (fs : List String → Option String) (path : List String) (d : Bool),
      (∀ q, q <+: path.dropLast → fs q = none) →
      is_ignored none fs path d = false) := by
  refine ⟨?_, ?_, ?_⟩
  · intro g fs1 fs2 path d hagree
    unfold is_ignored
    cases hm : (match g with
      | some m => m (String.intercalate "/" path) d
      | none => false) with
    | true => rfl
    | false =>
      cases path with
      | nil => rfl
      | cons a t =>
        cases hlast : (a :: t).getLast? with
        | none => rfl
        | some fname =>
          simp only [List.isEmpty_cons, Bool.false_eq_true, if_false]
          exact walk_up_congr fname fs1 fs2 (a :: t).dropLast.length
            (a :: t).dropLast (Nat.le_refl _) hagree
  · intro fs path d
    unfold is_ignored
    cases path with
    | nil => simp
    | cons a t =>
      cases hlast : (a :: t).getLast? with
      | none =>
        rw [List.getLast?_eq_none_iff] at hlast
        exact absurd hlast (by simp)
      | some fname =>
        simp only [List.isEmpty_cons, Bool.false_eq_true, if_false]
        constructor
        · intro hw
          obtain ⟨q, hq, c, hc, hm⟩ :=
            (walk_up_iff fname fs (a :: t).dropLast.length (a :: t).dropLast
              (Nat.le_refl _)).mp hw
          exact ⟨fname, rfl, q, hq, c, hc, hm⟩
        · rintro ⟨fname2, hf, q, hq, c, hc, hm⟩
          have hff : fname2 = fname := (Option.some.inj hf).symm
          subst hff
          exact (walk_up_iff fname2 fs (a :: t).dropLast.length
            (a :: t).dropLast (Nat.le_refl _)).mpr ⟨q, hq, c, hc, hm⟩
  · intro fs path d hnone
    unfold is_ignored
    cases path with
    | nil => rfl
    | cons a t =>
      cases hlast : (a :: t).getLast? with
      | none => rfl
      | some fname =>
        simp only [List.isEmpty_cons, Bool.false_eq_true, if_false]
        exact walk_up_none fname fs (a :: t).dropLast.length
          (a :: t).dropLast (Nat.le_refl _) hnone

/-- C5 witness: the amended theorem applied at concrete inputs — the empty
filesystem and `c5_fs` differ (at `r/sub`) but agree on the ancestors of
`r/x` (namely `[]` and `r`), so the congruence conjunct equates their
verdicts; the biconditional conjunct, applied right-to-left at `c5_fs` and
`r/sub/secret`, forces the verdict `true`; and the all-`none` filesystem
yields `false` with a missing root matcher. -/
theorem C5_ignore_depends_witness :
    is_ignored none (fun _ => none) ["r", "x"] false
        = is_ignored none c5_fs ["r", "x"] false ∧
    is_ignored none c5_fs ["r", "sub", "secret"] false = true ∧
    is_ignored none (fun _ => none) ["r", "x"] false = false :=
  ⟨C5_ignore_depends_on_root_patterns_and_ancestor_files.1 none (fun _ => none)
     c5_fs ["r", "x"] false
     (by
       intro q hq
       have hq2 : q <+: ["r"] := hq
       obtain ⟨r, hr⟩ := hq2
       cases q with
       | nil => rfl
       | cons b bs =>
         cases bs with
         | nil =>
           cases r with
           | nil =>
             simp only [List.singleton_append, List.cons.injEq, and_true] at hr
             subst hr
             rfl
           | cons y ys => simp at hr
         | cons z zs => simp at hr),
   (C5_ignore_depends_on_root_patterns_and_ancestor_files.2.1 c5_fs
      ["r", "sub", "secret"] false).mpr
     ⟨"secret", rfl, ["r", "sub"], List.prefix_refl _, "secret", rfl,
      by decide⟩,
   C5_ignore_depends_on_root_patterns_and_ancestor_files.2.2 (fun _ => none)
     ["r", "x"] false (fun _ _ => rfl)⟩

end Texplore
end WsTools
